import Mathlib

/-!
Verification of the SynthQuant synthetic market-data core.

This file shallowly embeds the price-path generator
(`app/services/data_generator.py`, `app/services/generator.py`) and the
event-injection pipeline (`app/services/event_manager.py`) into Lean.
Machine floats are modelled as real numbers, numpy arrays as lists of
reals, the seeded random generator as an abstract shock function
`Z : ℕ → ℝ` (a deterministic function of the seed), and the wall clock
(`datetime.now`, truncated to the minute) as an explicit integer
parameter counting minutes.
-/

namespace SynthQuant

/-! ### List helpers (numpy `cumsum` and indexing) -/

/-- `np.cumsum`: partial sums of a list, same length as the input. -/
def cumsum : List ℝ → List ℝ
  | [] => []
  | x :: xs => x :: (cumsum xs).map (fun y => x + y)

theorem cumsum_length (xs : List ℝ) : (cumsum xs).length = xs.length := by
  induction xs with
  | nil => rfl
  | cons x xs ih => simp [cumsum, ih]

theorem getD_map_of_lt {α β : Type} (g : α → β) (l : List α) (i : ℕ) (a : α) (b : β)
    (h : i < l.length) : (l.map g).getD i b = g (l.getD i a) := by
  rw [List.getD_eq_getElem _ _ (by simpa using h), List.getD_eq_getElem _ _ h]
  exact List.getElem_map g

theorem cumsum_getD (xs : List ℝ) (i : ℕ) (h : i < xs.length) :
    (cumsum xs).getD i 0 = ∑ j ∈ Finset.range (i + 1), xs.getD j 0 := by
  induction xs generalizing i with
  | nil => simp at h
  | cons x xs ih =>
    cases i with
    | zero => simp [cumsum]
    | succ i =>
      have hi : i < xs.length := by simpa using h
      have hlen : i < (cumsum xs).length := by rw [cumsum_length]; exact hi
      calc (cumsum (x :: xs)).getD (i + 1) 0
          = ((cumsum xs).map (fun y => x + y)).getD i 0 := by simp [cumsum]
        _ = x + (cumsum xs).getD i 0 := getD_map_of_lt _ _ _ 0 0 hlen
        _ = x + ∑ j ∈ Finset.range (i + 1), xs.getD j 0 := by rw [ih i hi]
        _ = ∑ j ∈ Finset.range (i + 1 + 1), (x :: xs).getD j 0 := by
            conv_rhs => rw [Finset.sum_range_succ']
            simp
            ring

theorem getD_map_range (f : ℕ → ℝ) (n i : ℕ) (h : i < n) :
    ((List.range n).map f).getD i 0 = f i := by
  rw [List.getD_eq_getElem _ _ (by simpa using h)]
  simp

/-! ### GBM path generation (`data_generator.generate_gbm_prices`) -/

/-- One per-step log-return of the GBM discretization:
`(drift - 0.5*volatility**2) * dt + volatility * sqrt(dt) * Z`. -/
noncomputable def logReturn (drift volatility dt z : ℝ) : ℝ :=
  (drift - 0.5 * volatility ^ 2) * dt + volatility * Real.sqrt dt * z

/-- `generate_gbm_prices`: draws `numSteps` shocks `Z 0 .. Z (numSteps-1)`,
forms per-step log-returns, takes their cumulative sums, prepends 0 and
exponentiates, scaled by the start price. -/
noncomputable def generate_gbm_prices (startPrice : ℝ) (numSteps : ℕ) (dt : ℝ)
    (drift volatility : ℝ) (Z : ℕ → ℝ) : List ℝ :=
  let logReturns := (List.range numSteps).map (fun i => logReturn drift volatility dt (Z i))
  (0 :: cumsum logReturns).map (fun c => startPrice * Real.exp c)

theorem generate_gbm_prices_length (startPrice : ℝ) (numSteps : ℕ) (dt drift volatility : ℝ)
    (Z : ℕ → ℝ) :
    (generate_gbm_prices startPrice numSteps dt drift volatility Z).length = numSteps + 1 := by
  simp [generate_gbm_prices, cumsum_length]

theorem generate_gbm_prices_getD (startPrice : ℝ) (numSteps : ℕ) (dt drift volatility : ℝ)
    (Z : ℕ → ℝ) (i : ℕ) (hi : i ≤ numSteps) :
    (generate_gbm_prices startPrice numSteps dt drift volatility Z).getD i 0
      = startPrice * Real.exp (∑ j ∈ Finset.range i, logReturn drift volatility dt (Z j)) := by
  unfold generate_gbm_prices
  set lrs := (List.range numSteps).map (fun i => logReturn drift volatility dt (Z i)) with hlrs
  have hlen : (0 :: cumsum lrs).length = numSteps + 1 := by
    simp [cumsum_length, hlrs]
  have hi' : i < (0 :: cumsum lrs).length := by omega
  rw [getD_map_of_lt _ _ _ 0 0 hi']
  cases i with
  | zero => simp
  | succ i =>
    have hilt : i < lrs.length := by simp [hlrs]; omega
    have hcons : (0 :: cumsum lrs).getD (i + 1) 0 = (cumsum lrs).getD i 0 := by simp
    have hsum : ∑ j ∈ Finset.range (i + 1), lrs.getD j 0
        = ∑ j ∈ Finset.range (i + 1), logReturn drift volatility dt (Z j) := by
      apply Finset.sum_congr rfl
      intro j hj
      have hj' : j < numSteps := by
        have := Finset.mem_range.mp hj
        omega
      rw [hlrs, getD_map_range _ _ _ hj']
    rw [hcons, cumsum_getD lrs i hilt, hsum]

/-! ### Frequency tables (`config.SUPPORTED_FREQUENCIES`,
`SyntheticGenerator.STEPS_PER_DAY`, `SyntheticGenerator.FREQUENCY_DELTA`) -/

def SUPPORTED_FREQUENCIES : List String :=
  ["1m", "5m", "15m", "30m", "1h", "4h", "1d"]

def STEPS_PER_DAY (f : String) : Option ℕ :=
  match f with
  | "1m" => some 1440
  | "5m" => some 288
  | "15m" => some 96
  | "30m" => some 48
  | "1h" => some 24
  | "4h" => some 6
  | "1d" => some 1
  | _ => none

/-- `FREQUENCY_DELTA`, with each timedelta expressed in whole minutes. -/
def FREQUENCY_DELTA (f : String) : Option ℤ :=
  match f with
  | "1m" => some 1
  | "5m" => some 5
  | "15m" => some 15
  | "30m" => some 30
  | "1h" => some 60
  | "4h" => some 240
  | "1d" => some 1440
  | _ => none

/-! ### `SyntheticGenerator` (`generator.py`) -/

/-- `_scale_parameters`, first component: `mu_scaled = mu_daily / steps_per_day`. -/
noncomputable def muScaled (muDaily : ℝ) (stepsPerDay : ℕ) : ℝ :=
  muDaily / stepsPerDay

/-- `_scale_parameters`, second component:
`sigma_scaled = sigma_daily / np.sqrt(steps_per_day)`. -/
noncomputable def sigmaScaled (sigmaDaily : ℝ) (stepsPerDay : ℕ) : ℝ :=
  sigmaDaily / Real.sqrt stepsPerDay

/-- The per-step log-return used in `generate_path`, after pre-scaling the
daily parameters: `(mu - 0.5*sigma**2) + sigma*Z` (the code comments note
that `dt = 1` once parameters are per-step). -/
noncomputable def stepLogReturnScaled (mu sigma z : ℝ) : ℝ :=
  (mu - 0.5 * sigma ^ 2) + sigma * z

/-- `SyntheticGenerator.generate_path`.  The seeded numpy generator is
abstracted as the shock function `Z` (a fixed seed determines `Z`); the
impure `datetime.now(timezone.utc).replace(second=0, microsecond=0)` is the
explicit parameter `now`, in whole minutes since some epoch.  The output is
the list of (timestamp, Close) pairs of the resulting data frame, or the
`ValueError` message for an unsupported frequency. -/
noncomputable def generate_path (muDaily sigmaDaily startPrice : ℝ)
    (volatilityMultiplier driftMultiplier : ℝ) (horizonDays : ℕ)
    (frequency : String) (Z : ℕ → ℝ) (now : ℤ) :
    Except String (List (ℤ × ℝ)) :=
  if frequency ∈ SUPPORTED_FREQUENCIES then
    let stepsPerDay := (STEPS_PER_DAY frequency).getD 24
    let totalSteps := stepsPerDay * horizonDays
    let muAdjusted := muScaled muDaily stepsPerDay * driftMultiplier
    let sigmaAdjusted := sigmaScaled sigmaDaily stepsPerDay * volatilityMultiplier
    let logReturns := (List.range totalSteps).map
      (fun i => stepLogReturnScaled muAdjusted sigmaAdjusted (Z i))
    let prices := startPrice :: (cumsum logReturns).map (fun c => startPrice * Real.exp c)
    let delta := (FREQUENCY_DELTA frequency).getD 60
    let timestamps := (List.range (totalSteps + 1)).map (fun (i : ℕ) => now + (i : ℤ) * delta)
    Except.ok (timestamps.zip prices)
  else
    Except.error ("Unsupported frequency: " ++ frequency)

/-- Whether a `generate_path` call returned a data frame (as opposed to
raising). -/
def resultOk : Except String (List (ℤ × ℝ)) → Bool
  | Except.ok _ => true
  | Except.error _ => false

theorem generate_path_ok (muDaily sigmaDaily startPrice vm dm : ℝ) (horizonDays : ℕ)
    (frequency : String) (Z : ℕ → ℝ) (now : ℤ)
    (hf : frequency ∈ SUPPORTED_FREQUENCIES) :
    generate_path muDaily sigmaDaily startPrice vm dm horizonDays frequency Z now
      = Except.ok
        (((List.range ((STEPS_PER_DAY frequency).getD 24 * horizonDays + 1)).map
            (fun (i : ℕ) => now + (i : ℤ) * (FREQUENCY_DELTA frequency).getD 60)).zip
          (startPrice :: (cumsum ((List.range ((STEPS_PER_DAY frequency).getD 24 * horizonDays)).map
            (fun i => stepLogReturnScaled
              (muScaled muDaily ((STEPS_PER_DAY frequency).getD 24) * dm)
              (sigmaScaled sigmaDaily ((STEPS_PER_DAY frequency).getD 24) * vm)
              (Z i)))).map (fun c => startPrice * Real.exp c))) := by
  rw [generate_path, if_pos hf]

theorem generate_path_ok_length (muDaily sigmaDaily startPrice vm dm : ℝ) (horizonDays : ℕ)
    (frequency : String) (Z : ℕ → ℝ) (now : ℤ)
    (hf : frequency ∈ SUPPORTED_FREQUENCIES) (l : List (ℤ × ℝ))
    (hok : generate_path muDaily sigmaDaily startPrice vm dm horizonDays frequency Z now
      = Except.ok l) :
    l.length = (STEPS_PER_DAY frequency).getD 24 * horizonDays + 1 := by
  rw [generate_path_ok muDaily sigmaDaily startPrice vm dm horizonDays frequency Z now hf]
    at hok
  cases hok
  simp only [List.length_zip, List.length_map, List.length_cons, cumsum_length,
    List.length_range]
  omega

/-! ### Event manager (`event_manager.py`)

Each event transforms the price column of a data frame.  The column is a
`List ℝ` (`List (Option ℝ)` for the IPO event, where `none` models `NaN`).
The trigger step is an `ℤ` since Python allows negative indices to reach
the guard checks. -/

/-- `EventManager._apply_ipo`: prices before `trigger_step` become `NaN`
(`none`); out-of-bounds triggers return the frame unchanged. -/
def apply_ipo (prices : List (Option ℝ)) (triggerStep : ℤ) : List (Option ℝ) :=
  if triggerStep < 0 ∨ (prices.length : ℤ) ≤ triggerStep then prices
  else prices.mapIdx (fun i p => if (i : ℤ) < triggerStep then none else p)

open Classical in
/-- `EventManager._apply_earnings_shock`: prices from `trigger_step` onward
are multiplied by `1 + magnitude`, floored at `0.01` when non-positive;
out-of-bounds triggers return the frame unchanged. -/
noncomputable def apply_earnings_shock (prices : List ℝ) (triggerStep : ℤ)
    (magnitude : ℝ) : List ℝ :=
  if triggerStep < 0 ∨ (prices.length : ℤ) ≤ triggerStep then prices
  else
    prices.mapIdx (fun i p =>
      if (i : ℤ) < triggerStep then p
      else p * (if (1 : ℝ) + magnitude ≤ 0 then 0.01 else 1 + magnitude))

open Classical in
/-- `_apply_crash`'s magnitude clamp:
`if magnitude <= 0 or magnitude >= 1: magnitude = min(0.99, max(0.01, magnitude))`. -/
noncomputable def clampMagnitude (m : ℝ) : ℝ :=
  if m ≤ 0 ∨ 1 ≤ m then min 0.99 (max 0.01 m) else m

/-- `_apply_crash`'s duration clamp: `if duration_steps < 1: duration_steps = 1`. -/
def clampDuration (d : ℤ) : ℤ :=
  if d < 1 then 1 else d

/-- `crash_end = min(trigger_step + duration_steps, n)`. -/
def crashWindowEnd (len t : ℕ) (d : ℤ) : ℕ :=
  min (t + (clampDuration d).toNat) len

/-- The sequence of cumulative multipliers produced by `_apply_crash`'s
update loop, started from accumulator `c`:
`cumulative_mult *= (1 + returns[i]); cumulative_mult = max(cumulative_mult, 1.0 - magnitude * 1.1)`.
The `i`-th element is the multiplier applied to the `i`-th point of the
crash window. -/
noncomputable def crashMultsFrom (m c : ℝ) : List ℝ → List ℝ
  | [] => []
  | r :: rs =>
    let cNew := max (c * (1 + r)) (1 - m * 1.1)
    cNew :: crashMultsFrom m cNew rs

/-- The multiplier sequence of the crash loop, started from
`cumulative_mult = 1.0`. -/
noncomputable def crashMults (m : ℝ) (rs : List ℝ) : List ℝ :=
  crashMultsFrom m 1 rs

/-- The multipliers `_apply_crash` applies inside the crash window, for the
window determined by the (clamped) trigger, magnitude and duration.  `rs`
abstracts the blended random per-step returns. -/
noncomputable def crashWindowMults (len : ℕ) (triggerStep : ℤ) (magnitude : ℝ)
    (durationSteps : ℤ) (rs : ℕ → ℝ) : List ℝ :=
  crashMults (clampMagnitude magnitude)
    ((List.range (crashWindowEnd len triggerStep.toNat durationSteps
      - triggerStep.toNat)).map rs)

/-- `EventManager._apply_crash`, with the stochastic return pipeline
abstracted as the arbitrary per-step return function `rs` (the claims below
quantify over every possible sequence of draws).  Window points are scaled
by the running clamped cumulative multiplier; points after the window are
rebased by `1 - magnitude`. -/
noncomputable def apply_crash (prices : List ℝ) (triggerStep : ℤ) (magnitude : ℝ)
    (durationSteps : ℤ) (rs : ℕ → ℝ) : List ℝ :=
  if triggerStep < 0 ∨ (prices.length : ℤ) ≤ triggerStep then prices
  else if crashWindowEnd prices.length triggerStep.toNat durationSteps
      - triggerStep.toNat < 1 then prices
  else
    prices.mapIdx (fun i p =>
      if i < triggerStep.toNat then p
      else if i < crashWindowEnd prices.length triggerStep.toNat durationSteps then
        p * (crashWindowMults prices.length triggerStep magnitude durationSteps rs).getD
          (i - triggerStep.toNat) 0
      else p * (1 - clampMagnitude magnitude))

theorem crashMultsFrom_length (m c : ℝ) (rs : List ℝ) :
    (crashMultsFrom m c rs).length = rs.length := by
  induction rs generalizing c with
  | nil => rfl
  | cons r rs ih => simp [crashMultsFrom, ih]

theorem crashMultsFrom_floor (m c : ℝ) (rs : List ℝ) :
    ∀ x ∈ crashMultsFrom m c rs, 1 - 1.1 * m ≤ x := by
  induction rs generalizing c with
  | nil => simp [crashMultsFrom]
  | cons r rs ih =>
    intro x hx
    rw [crashMultsFrom] at hx
    rcases List.mem_cons.mp hx with h | h
    · rw [h]
      calc 1 - 1.1 * m = 1 - m * 1.1 := by ring
        _ ≤ max (c * (1 + r)) (1 - m * 1.1) := le_max_right _ _
    · exact ih _ x h

theorem getD_mapIdx_of_lt {α β : Type} (f : ℕ → α → β) (l : List α) (i : ℕ) (a : α) (b : β)
    (h : i < l.length) : (l.mapIdx f).getD i b = f i (l.getD i a) := by
  rw [List.getD_eq_getElem _ _ (by simpa using h), List.getD_eq_getElem _ _ h]
  exact List.get_mapIdx l f i h

/-! ### Realism score (`data_generator.calculate_realism_score`) -/

/-- `np.diff(prices) / prices[:-1]`: simple returns of consecutive prices. -/
noncomputable def simpleReturns (prices : List ℝ) : List ℝ :=
  List.zipWith (fun prev next => (next - prev) / prev) prices prices.tail

/-- `np.mean`. -/
noncomputable def listMean (xs : List ℝ) : ℝ :=
  xs.sum / xs.length

/-- `np.std` (population standard deviation, numpy's default `ddof=0`). -/
noncomputable def listStd (xs : List ℝ) : ℝ :=
  Real.sqrt (listMean (xs.map (fun x => (x - listMean xs) ^ 2)))

open Classical in
/-- Python 3 `round` on an exact value: round half to even. -/
noncomputable def roundHalfEven (x : ℝ) : ℤ :=
  if Int.fract x = 1 / 2 then (if Even ⌊x⌋ then ⌊x⌋ else ⌊x⌋ + 1) else round x

/-- `round(x, 1)`: round to one decimal place. -/
noncomputable def roundTo1 (x : ℝ) : ℝ :=
  (roundHalfEven (10 * x) : ℝ) / 10

open Classical in
/-- `calculate_realism_score`: the weighted heuristic of volatility
plausibility, outlier frequency, path positivity and a constant bonus,
clamped into `[70.0, 99.9]` and rounded to one decimal. -/
noncomputable def calculate_realism_score (prices : List ℝ) : ℝ :=
  let returns := simpleReturns prices
  let volatility := listStd returns
  let volScore := min 100 (max 0 (100 - |volatility - 0.02| * 1000))
  let outliers := (returns.filter (fun r => decide (3 * volatility < |r|))).length
  let outlierFrac := (outliers : ℝ) / (returns.length : ℝ)
  let jumpScore := max 0 (100 - outlierFrac * 500)
  let continuityScore : ℝ := if ∀ p ∈ prices, 0 < p then 100 else 50
  let randomnessBonus : ℝ := 15
  let finalScore := volScore * 0.3 + jumpScore * 0.3 + continuityScore * 0.2 + randomnessBonus
  roundTo1 (min 99.9 (max 70.0 finalScore))

theorem roundHalfEven_bounds (y : ℝ) (lo hi : ℤ) (hlo : (lo : ℝ) ≤ y) (hhi : y ≤ (hi : ℝ)) :
    lo ≤ roundHalfEven y ∧ roundHalfEven y ≤ hi := by
  have hfl : lo ≤ ⌊y⌋ := Int.le_floor.mpr hlo
  rw [roundHalfEven]
  by_cases hhalf : Int.fract y = 1 / 2
  · have hy : y = (⌊y⌋ : ℝ) + 1 / 2 := by
      have := Int.fract_add_floor y
      rw [hhalf] at this
      linarith
    have hup : ⌊y⌋ + 1 ≤ hi := by
      have h1 : (⌊y⌋ : ℝ) + 1 / 2 ≤ (hi : ℝ) := by rw [← hy]; exact hhi
      have h2 : (⌊y⌋ : ℝ) < (hi : ℝ) := by linarith
      exact_mod_cast Int.lt_iff_add_one_le.mp (by exact_mod_cast h2)
    rw [if_pos hhalf]
    by_cases hev : Even ⌊y⌋
    · rw [if_pos hev]
      exact ⟨hfl, by omega⟩
    · rw [if_neg hev]
      exact ⟨by omega, hup⟩
  · rw [if_neg hhalf, round_eq]
    constructor
    · apply Int.le_floor.mpr
      linarith
    · have h3 : y + 1 / 2 < ((hi : ℝ) + 1) := by linarith
      have h4 : ⌊y + 1 / 2⌋ < hi + 1 := Int.floor_lt.mpr (by exact_mod_cast h3)
      omega

/-! ### Claim theorems -/

/-- C1: for every parameter set and every seed (abstracted as the shock
function `Z` the seeded generator produces), the generated path has exactly
`numSteps + 1` prices, the first price equals the start price, and the
`i`-th price (`1 ≤ i ≤ numSteps`) equals
`start_price * exp(Σ_{j<i} r_j)` with
`r_j = (drift - 0.5*volatility²)*dt + volatility*sqrt(dt)*Z_j`. -/
theorem gbm_path_shape_and_values (startPrice drift volatility dt : ℝ)
    (numSteps : ℕ) (Z : ℕ → ℝ) :
    (generate_gbm_prices startPrice numSteps dt drift volatility Z).length = numSteps + 1
    ∧ (generate_gbm_prices startPrice numSteps dt drift volatility Z).getD 0 0 = startPrice
    ∧ ∀ i, 1 ≤ i → i ≤ numSteps →
        (generate_gbm_prices startPrice numSteps dt drift volatility Z).getD i 0
          = startPrice * Real.exp (∑ j ∈ Finset.range i, logReturn drift volatility dt (Z j)) := by
  refine ⟨generate_gbm_prices_length startPrice numSteps dt drift volatility Z, ?_, ?_⟩
  · have h := generate_gbm_prices_getD startPrice numSteps dt drift volatility Z 0 (by omega)
    simpa using h
  · intro i h1 h2
    exact generate_gbm_prices_getD startPrice numSteps dt drift volatility Z i h2

theorem gbm_path_shape_and_values_witness :
    (generate_gbm_prices 100 2 1 0 0 (fun _ => 0)).getD 1 0
      = 100 * Real.exp ((Finset.range 1).sum (fun _ => logReturn 0 0 1 0)) :=
  (gbm_path_shape_and_values 100 0 0 1 2 (fun _ => 0)).2.2 1 (by omega) (by omega)

/-- C4: the two parameterizations are equivalent in exact arithmetic — the
per-step log-return computed from pre-scaled parameters
(`mu/n`, `sigma/sqrt(n)`, `dt = 1`, as in `generate_path`) equals the
per-step log-return computed with `dt = 1/n` directly (as in
`generate_gbm_prices`), for the same shock. -/
theorem scaling_reparameterization_equiv (mu sigma z : ℝ) (n : ℕ) (hn : 0 < n) :
    stepLogReturnScaled (muScaled mu n) (sigmaScaled sigma n) z
      = logReturn mu sigma (1 / (n : ℝ)) z := by
  unfold stepLogReturnScaled muScaled sigmaScaled logReturn
  have hn' : (0 : ℝ) < (n : ℝ) := by exact_mod_cast hn
  have hs : (0 : ℝ) < Real.sqrt (n : ℝ) := Real.sqrt_pos.mpr hn'
  have hsq : Real.sqrt (n : ℝ) * Real.sqrt (n : ℝ) = (n : ℝ) :=
    Real.mul_self_sqrt (le_of_lt hn')
  have hinv : Real.sqrt (1 / (n : ℝ)) = 1 / Real.sqrt (n : ℝ) := by
    rw [one_div, one_div, Real.sqrt_inv]
  rw [hinv]
  field_simp

theorem scaling_reparameterization_equiv_witness :
    0 < 4 ∧ stepLogReturnScaled (muScaled 1 4) (sigmaScaled 2 4) 3
      = logReturn 1 2 (1 / ((4 : ℕ) : ℝ)) 3 :=
  ⟨by decide, scaling_reparameterization_equiv 1 2 3 4 (by decide)⟩

/-- C8: for every frequency string outside the supported set, `generate_path`
fails with the unsupported-frequency error and produces no output (the
result is the bare error, with no partial sequence). -/
theorem unsupported_frequency_atomic (muDaily sigmaDaily startPrice vm dm : ℝ)
    (horizonDays : ℕ) (frequency : String) (Z : ℕ → ℝ) (now : ℤ)
    (hf : frequency ∉ SUPPORTED_FREQUENCIES) :
    generate_path muDaily sigmaDaily startPrice vm dm horizonDays frequency Z now
      = Except.error ("Unsupported frequency: " ++ frequency) := by
  rw [generate_path, if_neg hf]

theorem unsupported_frequency_atomic_witness :
    generate_path 0 0 100 1 1 1 "2h" (fun _ => 0) 0
      = Except.error ("Unsupported frequency: " ++ "2h") :=
  unsupported_frequency_atomic 0 0 100 1 1 1 "2h" (fun _ => 0) 0 (by decide)

/-- C9: every price of a generated path is strictly positive when the start
price is strictly positive, for both generators (drift, volatility and the
shocks are arbitrary reals, i.e. finite). -/
theorem generated_prices_positive (startPrice drift volatility dt : ℝ) (numSteps : ℕ)
    (Z : ℕ → ℝ) (muDaily sigmaDaily vm dm : ℝ) (horizonDays : ℕ) (frequency : String)
    (now : ℤ) (hpos : 0 < startPrice) :
    (∀ p ∈ generate_gbm_prices startPrice numSteps dt drift volatility Z, 0 < p)
    ∧ ∀ l, generate_path muDaily sigmaDaily startPrice vm dm horizonDays frequency Z now
        = Except.ok l → ∀ q ∈ l, 0 < q.2 := by
  constructor
  · intro p hp
    unfold generate_gbm_prices at hp
    rcases List.mem_map.mp hp with ⟨c, hc, hcp⟩
    rw [← hcp]
    exact mul_pos hpos (Real.exp_pos c)
  · intro l hl q hq
    by_cases hf : frequency ∈ SUPPORTED_FREQUENCIES
    · rw [generate_path_ok muDaily sigmaDaily startPrice vm dm horizonDays frequency Z now hf]
        at hl
      cases hl
      have hsnd := (List.of_mem_zip hq).2
      rcases List.mem_cons.mp hsnd with h | h
      · rw [h]; exact hpos
      · rcases List.mem_map.mp h with ⟨c, hc, hcp⟩
        rw [← hcp]
        exact mul_pos hpos (Real.exp_pos c)
    · rw [generate_path, if_neg hf] at hl
      cases hl

theorem generated_prices_positive_witness :
    0 < (100 : ℝ) ∧ 0 < (generate_gbm_prices 100 0 1 0 0 (fun _ => 0)).getD 0 0 :=
  ⟨by norm_num, by
    have hlen : 0 < (generate_gbm_prices 100 0 1 0 0 (fun _ => 0)).length := by
      rw [generate_gbm_prices_length]
      omega
    have hmem : (generate_gbm_prices 100 0 1 0 0 (fun _ => 0)).getD 0 0
        ∈ generate_gbm_prices 100 0 1 0 0 (fun _ => 0) := by
      rw [List.getD_eq_getElem _ _ hlen]
      exact List.getElem_mem hlen
    exact (generated_prices_positive 100 0 0 1 0 (fun _ => 0) 0 0 1 1 0 "1h" 0
      (by norm_num)).1 _ hmem⟩

/-- C3: for every price series, in-range trigger, magnitude and duration, and
for every possible sequence of per-step random draws `rs`, each point inside
the crash window is scaled by the running cumulative multiplier, and that
multiplier never drops below the hard floor `1 - 1.1*m` (`m` the clamped
magnitude). -/
theorem crash_window_floor (prices : List ℝ) (triggerStep : ℤ) (magnitude : ℝ)
    (durationSteps : ℤ) (rs : ℕ → ℝ) (i : ℕ)
    (h0 : 0 ≤ triggerStep) (h1 : triggerStep < (prices.length : ℤ))
    (hit : triggerStep.toNat ≤ i)
    (hiw : i < crashWindowEnd prices.length triggerStep.toNat durationSteps) :
    (apply_crash prices triggerStep magnitude durationSteps rs).getD i 0
      = prices.getD i 0
        * (crashWindowMults prices.length triggerStep magnitude durationSteps rs).getD
            (i - triggerStep.toNat) 0
    ∧ 1 - 1.1 * clampMagnitude magnitude
        ≤ (crashWindowMults prices.length triggerStep magnitude durationSteps rs).getD
            (i - triggerStep.toNat) 0 := by
  have hguard : ¬(triggerStep < 0 ∨ (prices.length : ℤ) ≤ triggerStep) := by omega
  have htlen : triggerStep.toNat < prices.length := by omega
  have hd1 : 1 ≤ (clampDuration durationSteps).toNat := by
    unfold clampDuration
    split <;> omega
  have hce : crashWindowEnd prices.length triggerStep.toNat durationSteps ≤ prices.length :=
    Nat.min_le_right _ _
  have hilen : i < prices.length := lt_of_lt_of_le hiw hce
  have had : ¬(crashWindowEnd prices.length triggerStep.toNat durationSteps
      - triggerStep.toNat < 1) := by
    unfold crashWindowEnd
    omega
  constructor
  · rw [apply_crash, if_neg hguard, if_neg had, getD_mapIdx_of_lt _ _ _ 0 0 hilen,
      if_neg (by omega), if_pos hiw]
  · have hmlen :
        (crashWindowMults prices.length triggerStep magnitude durationSteps rs).length
          = crashWindowEnd prices.length triggerStep.toNat durationSteps
              - triggerStep.toNat := by
      unfold crashWindowMults crashMults
      rw [crashMultsFrom_length, List.length_map, List.length_range]
    have hidx : i - triggerStep.toNat
        < (crashWindowMults prices.length triggerStep magnitude durationSteps rs).length := by
      omega
    have hmem :
        (crashWindowMults prices.length triggerStep magnitude durationSteps rs).getD
            (i - triggerStep.toNat) 0
          ∈ crashWindowMults prices.length triggerStep magnitude durationSteps rs := by
      rw [List.getD_eq_getElem _ _ hidx]
      exact List.getElem_mem hidx
    exact crashMultsFrom_floor (clampMagnitude magnitude) 1 _ _ hmem

theorem crash_window_floor_witness :
    1 - 1.1 * clampMagnitude 0.3
      ≤ (crashWindowMults 2 0 0.3 1 (fun _ => -0.9)).getD 0 0 :=
  (crash_window_floor [100, 100] 0 0.3 1 (fun _ => -0.9) 0 (by decide) (by norm_num)
    (by decide) (by decide)).2

open Classical in
/-- C5: an earnings shock with in-range trigger multiplies every point with
index `>= t` by `1 + m` (floored at `0.01` when `1 + m <= 0`) and leaves
points with index `< t` unchanged; out-of-range triggers leave the series
unchanged; and on a 20-point constant-100 series with `t = 10`, `m = 0.1`
indices 0–9 stay 100 and indices 10–19 become exactly 110. -/
theorem earnings_shock_spec (prices : List ℝ) (triggerStep : ℤ) (magnitude : ℝ) :
    (0 ≤ triggerStep → triggerStep < (prices.length : ℤ) →
      ∀ i, i < prices.length →
        (apply_earnings_shock prices triggerStep magnitude).getD i 0
          = if (i : ℤ) < triggerStep then prices.getD i 0
            else prices.getD i 0 * (if (1 : ℝ) + magnitude ≤ 0 then 0.01 else 1 + magnitude))
    ∧ (triggerStep < 0 ∨ (prices.length : ℤ) ≤ triggerStep →
        apply_earnings_shock prices triggerStep magnitude = prices)
    ∧ apply_earnings_shock (List.replicate 20 (100 : ℝ)) 10 0.1
        = List.replicate 10 100 ++ List.replicate 10 110 := by
  have main : ∀ (ps : List ℝ) (t : ℤ) (m : ℝ), 0 ≤ t → t < (ps.length : ℤ) →
      ∀ i, i < ps.length →
        (apply_earnings_shock ps t m).getD i 0
          = if (i : ℤ) < t then ps.getD i 0
            else ps.getD i 0 * (if (1 : ℝ) + m ≤ 0 then 0.01 else 1 + m) := by
    intro ps t m h0 h1 i hi
    rw [apply_earnings_shock, if_neg (by omega), getD_mapIdx_of_lt _ _ _ 0 0 hi]
  refine ⟨main prices triggerStep magnitude, ?_, ?_⟩
  · intro h
    rw [apply_earnings_shock, if_pos h]
  · have hlen1 : (apply_earnings_shock (List.replicate 20 (100 : ℝ)) 10 0.1).length = 20 := by
      rw [apply_earnings_shock, if_neg (by simp)]
      simp
    have hlen2 : (List.replicate 10 (100 : ℝ) ++ List.replicate 10 110).length = 20 := by simp
    apply List.ext_getElem (by rw [hlen1, hlen2])
    intro i hL hR
    have hi20 : i < 20 := by omega
    have hval := main (List.replicate 20 (100 : ℝ)) 10 0.1 (by norm_num) (by simp) i (by simpa)
    rw [← List.getD_eq_getElem _ 0 hL, hval]
    have hrep : (List.replicate 20 (100 : ℝ)).getD i 0 = 100 := by
      rw [List.getD_eq_getElem _ _ (by simpa)]
      exact List.getElem_replicate (100 : ℝ) (by simpa)
    by_cases hc : i < 10
    · rw [if_pos (by exact_mod_cast hc), hrep, List.getElem_append_left (by simpa)]
      exact (List.getElem_replicate (100 : ℝ) (by simpa)).symm
    · rw [if_neg (by exact_mod_cast hc), hrep, List.getElem_append_right (by simpa using hc)]
      rw [List.getElem_replicate ((110 : ℝ)) (by simp; omega)]
      norm_num

open Classical in
theorem earnings_shock_spec_witness :
    (apply_earnings_shock (List.replicate 20 (100 : ℝ)) 10 0.1).getD 12 0
      = if ((12 : ℕ) : ℤ) < 10 then (List.replicate 20 (100 : ℝ)).getD 12 0
        else (List.replicate 20 (100 : ℝ)).getD 12 0
          * (if (1 : ℝ) + 0.1 ≤ 0 then 0.01 else 1 + 0.1) :=
  (earnings_shock_spec (List.replicate 20 100) 10 0.1).1 (by norm_num) (by simp) 12 (by simp)

/-- C6: an ipo event with trigger strictly between 0 and the length makes
exactly the points with index `< t` absent (`none`, modelling `NaN`) and
keeps all later points; triggers `<= 0` or `>= length` leave the series
unchanged (in particular `trigger_step = 0` is a pure no-op). -/
theorem ipo_spec (prices : List (Option ℝ)) (triggerStep : ℤ) :
    (0 < triggerStep → triggerStep < (prices.length : ℤ) →
      ∀ i, i < prices.length →
        (apply_ipo prices triggerStep).getD i none
          = if (i : ℤ) < triggerStep then none else prices.getD i none)
    ∧ (triggerStep ≤ 0 ∨ (prices.length : ℤ) ≤ triggerStep →
        apply_ipo prices triggerStep = prices) := by
  constructor
  · intro h0 h1 i hi
    rw [apply_ipo, if_neg (by omega), getD_mapIdx_of_lt _ _ _ none none hi]
  · intro h
    by_cases hg : triggerStep < 0 ∨ (prices.length : ℤ) ≤ triggerStep
    · rw [apply_ipo, if_pos hg]
    · have ht0 : triggerStep = 0 := by omega
      rw [apply_ipo, if_neg hg, ht0]
      apply List.ext_getElem (by simp)
      intro i h1 h2
      have hneg : ¬((i : ℤ) < (0 : ℤ)) := by omega
      simp [hneg]

theorem ipo_spec_witness :
    (apply_ipo [some (1 : ℝ), some 2] 1).getD 0 none
      = if ((0 : ℕ) : ℤ) < 1 then none else ([some (1 : ℝ), some 2]).getD 0 none :=
  (ipo_spec [some 1, some 2] 1).1 (by decide) (by decide) 0 (by decide)

theorem generate_path_map_snd (muDaily sigmaDaily startPrice vm dm : ℝ)
    (horizonDays : ℕ) (frequency : String) (Z : ℕ → ℝ) (now : ℤ)
    (hf : frequency ∈ SUPPORTED_FREQUENCIES) :
    (generate_path muDaily sigmaDaily startPrice vm dm horizonDays frequency Z now).map
        (List.map Prod.snd)
      = Except.ok (startPrice ::
          (cumsum ((List.range ((STEPS_PER_DAY frequency).getD 24 * horizonDays)).map
            (fun i => stepLogReturnScaled
              (muScaled muDaily ((STEPS_PER_DAY frequency).getD 24) * dm)
              (sigmaScaled sigmaDaily ((STEPS_PER_DAY frequency).getD 24) * vm)
              (Z i)))).map (fun c => startPrice * Real.exp c)) := by
  rw [generate_path_ok muDaily sigmaDaily startPrice vm dm horizonDays frequency Z now hf]
  simp only [Except.map]
  congr 1
  apply List.map_snd_zip
  simp [cumsum_length]

/-- C2 (amended): with a fixed seed (hence a fixed shock function `Z`), the
price sequence produced by `generate_path` is identical across repeated
calls regardless of when they run; but the timestamps are derived from the
wall clock at call time, so the full `(timestamp, price)` sequence is
identical only when the two calls observe the same minute-truncated clock
value. -/
theorem generate_path_prices_reproducible (muDaily sigmaDaily startPrice vm dm : ℝ)
    (horizonDays : ℕ) (frequency : String) (Z : ℕ → ℝ) (now1 now2 : ℤ) :
    (generate_path muDaily sigmaDaily startPrice vm dm horizonDays frequency Z now1).map
        (List.map Prod.snd)
      = (generate_path muDaily sigmaDaily startPrice vm dm horizonDays frequency Z now2).map
        (List.map Prod.snd)
    ∧ (now1 = now2 →
        generate_path muDaily sigmaDaily startPrice vm dm horizonDays frequency Z now1
          = generate_path muDaily sigmaDaily startPrice vm dm horizonDays frequency Z now2) := by
  constructor
  · by_cases hf : frequency ∈ SUPPORTED_FREQUENCIES
    · rw [generate_path_map_snd muDaily sigmaDaily startPrice vm dm horizonDays frequency Z
        now1 hf,
        generate_path_map_snd muDaily sigmaDaily startPrice vm dm horizonDays frequency Z
        now2 hf]
    · rw [generate_path, if_neg hf, generate_path, if_neg hf]
  · intro h
    rw [h]

theorem generate_path_prices_reproducible_witness :
    generate_path 0 0 100 1 1 1 "1d" (fun _ => 0) 0
      = generate_path 0 0 100 1 1 1 "1d" (fun _ => 0) 0 :=
  (generate_path_prices_reproducible 0 0 100 1 1 1 "1d" (fun _ => 0) 0 0).2 rfl

/-- C2 (counterexample): two calls of `generate_path` with the same seed but
different wall-clock minutes return different outputs — the timestamps
differ, so the output is not byte-for-byte identical across separate calls. -/
theorem generate_path_not_reproducible_across_time :
    generate_path 0 0 100 1 1 1 "1d" (fun _ => 0) 0
      ≠ generate_path 0 0 100 1 1 1 "1d" (fun _ => 0) 1440 := by
  intro h
  rw [generate_path_ok 0 0 100 1 1 1 "1d" (fun _ => 0) 0 (by decide),
    generate_path_ok 0 0 100 1 1 1 "1d" (fun _ => 0) 1440 (by decide)] at h
  have hsp : (STEPS_PER_DAY "1d").getD 24 = 1 := rfl
  have hfd : (FREQUENCY_DELTA "1d").getD 60 = 1440 := rfl
  rw [hsp, hfd] at h
  simp [List.range_succ, cumsum] at h

/-- C7 (counterexample): the core generators perform no parameter
validation — with a non-positive start price `generate_path` still returns
a data frame (no error), `generate_gbm_prices` with step count 0 still
produces a (1-element) output, and the produced first price is the
non-positive start price itself. -/
theorem generation_accepts_invalid_parameters :
    resultOk (generate_path 0 0 (-5) 1 1 1 "1d" (fun _ => 0) 0) = true
    ∧ (generate_gbm_prices (-5) 0 1 0 0 (fun _ => 0)).length = 0 + 1
    ∧ (generate_gbm_prices (-5) 2 1 0 0 (fun _ => 0)).getD 0 0 = -5 := by
  refine ⟨?_, generate_gbm_prices_length (-5) 0 1 0 0 (fun _ => 0), ?_⟩
  · rw [generate_path_ok 0 0 (-5) 1 1 1 "1d" (fun _ => 0) 0 (by decide)]
    rfl
  · have h := generate_gbm_prices_getD (-5) 2 1 0 0 (fun _ => 0) 0 (by omega)
    simpa using h

/-- C7 (amended): neither generator fails for non-positive start prices or
zero step counts — for any start price (of any sign) and any supported
frequency, `generate_path` returns a data frame, and `generate_gbm_prices`
returns a full `numSteps + 1`-point path for every step count; the
`start_price > 0` and `horizon_days > 0` checks live only in the API
request schema, outside the generation code. -/
theorem generation_no_invalid_parameter_check (muDaily sigmaDaily startPrice vm dm : ℝ)
    (horizonDays : ℕ) (frequency : String) (Z : ℕ → ℝ) (now : ℤ) (numSteps : ℕ)
    (dt drift volatility : ℝ) (hf : frequency ∈ SUPPORTED_FREQUENCIES) :
    resultOk (generate_path muDaily sigmaDaily startPrice vm dm horizonDays frequency Z now)
      = true
    ∧ (generate_gbm_prices startPrice numSteps dt drift volatility Z).length
        = numSteps + 1 := by
  constructor
  · rw [generate_path_ok muDaily sigmaDaily startPrice vm dm horizonDays frequency Z now hf]
    rfl
  · exact generate_gbm_prices_length startPrice numSteps dt drift volatility Z

theorem generation_no_invalid_parameter_check_witness :
    resultOk (generate_path 0 0 (-1) 1 1 1 "1h" (fun _ => 0) 0) = true
    ∧ (generate_gbm_prices (-1) 0 1 0 0 (fun _ => 0)).length = 0 + 1 :=
  generation_no_invalid_parameter_check 0 0 (-1) 1 1 1 "1h" (fun _ => 0) 0 0 1 0 0 (by decide)

theorem roundTo1_clamp_mem (x : ℝ) :
    70.0 ≤ roundTo1 (min 99.9 (max 70.0 x)) ∧ roundTo1 (min 99.9 (max 70.0 x)) ≤ 99.9 := by
  set y := min 99.9 (max 70.0 x) with hy
  have h70 : (70.0 : ℝ) ≤ y := le_min (by norm_num) (le_max_left _ _)
  have h99 : y ≤ 99.9 := min_le_left _ _
  have hb := roundHalfEven_bounds (10 * y) 700 999 (by push_cast; linarith)
    (by push_cast; linarith)
  constructor
  · rw [roundTo1]
    have h1 : ((700 : ℤ) : ℝ) ≤ ((roundHalfEven (10 * y) : ℤ) : ℝ) := by exact_mod_cast hb.1
    push_cast at h1
    linarith
  · rw [roundTo1]
    have h2 : ((roundHalfEven (10 * y) : ℤ) : ℝ) ≤ ((999 : ℤ) : ℝ) := by exact_mod_cast hb.2
    push_cast at h2
    linarith

/-- C10: whenever the realism score is defined (at least two prices, earlier
prices nonzero), `calculate_realism_score` returns a value in the closed
interval `[70.0, 99.9]` — never below 70 and never 100. -/
theorem realism_score_bounds (prices : List ℝ) (_hlen : 2 ≤ prices.length)
    (_hnz : ∀ p ∈ prices.dropLast, p ≠ 0) :
    70.0 ≤ calculate_realism_score prices ∧ calculate_realism_score prices ≤ 99.9 := by
  unfold calculate_realism_score
  exact roundTo1_clamp_mem _

theorem realism_score_bounds_witness :
    2 ≤ ([100, 100] : List ℝ).length
    ∧ 70.0 ≤ calculate_realism_score [100, 100]
    ∧ calculate_realism_score [100, 100] ≤ 99.9 :=
  ⟨by norm_num, realism_score_bounds [100, 100] (by norm_num) (by
    intro p hp
    simp at hp
    rw [hp]
    norm_num)⟩

end SynthQuant
